import Mathlib

/-!
Verification of the chunking / markdown-reconstruction / collection-assembly
core of `super_simple.py` (DocRAG simple PDF processor).

Text is modelled as `List Char`.  The three components embedded here are:

* the character chunker (the loop in `process_pdfs`, lines 293-304 of the
  source): `for i in range(0, len(text), chunk_size - overlap)`, taking
  `text[i:i+chunk_size]` and appending a chunk record when non-empty;
* the Open WebUI collection assembler (`prepare_openwebui_collection`,
  lines 96-140): grouping chunks by `metadata.source` into an
  insertion-ordered dict, then rebuilding documents with fresh ids and
  normalized metadata;
* the markdown generator (`generate_markdown`, lines 170-212).

`uuid.uuid4()` is modelled as a fresh-identifier supply threaded as a
counter: each call yields the current counter value and increments it.
Python character classes (`isupper`, `strip`) are modelled with Lean's
ASCII `Char.isUpper`/`Char.isLower`/`Char.isWhitespace`.
-/

namespace DocRAG

/-- Metadata stored on a chunk: source file name, 0-based index, and the
precomputed total-chunks estimate (source lines 299-303). -/
structure ChunkMetadata where
  source : String
  chunk_index : Nat
  total_chunks : Nat
deriving DecidableEq, Repr

/-- One chunk: a substring of the extracted text plus its metadata
(source lines 297-304). -/
structure Chunk where
  text : List Char
  metadata : ChunkMetadata
deriving DecidableEq, Repr

/-- The chunking loop of `process_pdfs` (source lines 293-304):
`for i in range(0, len(text), stride): chunk = text[i:i+chunk_size];
if chunk: chunks.append(...)`.  `acc` is the `chunks` list built so far;
`chunk_index` is `len(chunks)` at append time and `total_chunks` is
`len(text) // stride + 1`, both exactly as in the source. -/
def chunksAux (T : List Char) (s : String) (cs stride : Nat) (i : Nat)
    (acc : List Chunk) : List Chunk :=
  if h : 0 < stride ∧ i < T.length then
    chunksAux T s cs stride (i + stride)
      (if (T.drop i).take cs = [] then acc else
        acc ++ [{ text := (T.drop i).take cs,
                  metadata := { source := s, chunk_index := acc.length,
                                total_chunks := T.length / stride + 1 } }])
  else acc
termination_by T.length - i
decreasing_by omega

/-- The chunker on valid parameters: the loop started at offset 0 with an
empty accumulator, with stride `chunk_size - overlap` (source line 294). -/
def chunkList (T : List Char) (s : String) (cs ov : Nat) : List Chunk :=
  chunksAux T s cs (cs - ov) 0 []

/-- Modelled from the spec: the spec's standalone Chunker contract
`chunk(text, source, chunk_size, overlap)` fails with `InvalidConfig`
when `chunk_size ≤ overlap` (spec sections 4.1 and 7).  The source inlines
the chunk loop in `process_pdfs` with hardcoded `chunk_size = 1000`,
`overlap = 100` and has no such guard; only the guarded wrapper is
spec-modelled, the loop itself (`chunkList`) is from the source. -/
def chunk (T : List Char) (s : String) (cs ov : Nat) :
    Except String (List Chunk) :=
  if cs ≤ ov then Except.error "InvalidConfig"
  else Except.ok (chunkList T s cs ov)

/-- Number of loop iterations remaining when the loop variable is `i`:
`range(i, n, stride)` has `(n - i - 1) / stride + 1` elements when
`i < n`, none otherwise. -/
def numChunks (n stride i : Nat) : Nat :=
  if i < n then (n - i - 1) / stride + 1 else 0

/-- The chunk record emitted at loop offset `off` with index `idx`. -/
def mkChunk (T : List Char) (s : String) (cs stride off idx : Nat) : Chunk :=
  { text := (T.drop off).take cs,
    metadata := { source := s, chunk_index := idx,
                  total_chunks := T.length / stride + 1 } }

/-- One entry of a document's `content_chunks` array in the Open WebUI
collection (source lines 129-138).  `id` and `doc_id` are uuid4 values,
modelled as counter-issued naturals. -/
structure ContentChunk where
  id : Nat
  doc_id : Nat
  content : List Char
  metadata : ChunkMetadata
deriving DecidableEq, Repr

/-- One document entry of the collection (source lines 119-124). -/
structure Document where
  id : Nat
  url : String
  title : String
  content_chunks : List ContentChunk
deriving DecidableEq, Repr

/-- The Open WebUI collection structure (source lines 111-114). -/
structure Collection where
  name : String
  documents : List Document
deriving DecidableEq, Repr

/-- One step of the grouping loop (source lines 104-108): append the chunk
to the entry of its `metadata.source` key, creating the key at the end on
first sight — Python dicts preserve insertion order. -/
def insertBySource (m : List (String × List Chunk)) (c : Chunk) :
    List (String × List Chunk) :=
  match m with
  | [] => [(c.metadata.source, [c])]
  | (s, cs) :: rest =>
    if s = c.metadata.source then (s, cs ++ [c]) :: rest
    else (s, cs) :: insertBySource rest c

/-- `docs_by_source` of the source (lines 102-108): all chunks grouped by
their own `metadata.source`, keys in first-seen order. -/
def docs_by_source (all_chunks : List Chunk) : List (String × List Chunk) :=
  all_chunks.foldl insertBySource []

/-- The inner loop of document assembly (source lines 127-138): each chunk
of the group gets a fresh uuid, `doc_id` of the enclosing document,
`content` copied from the chunk's text, and rewritten metadata with
`chunk_index = i` (loop position) and `total_chunks` = group size.
`st` is the fresh-id counter. -/
def assembleContentChunks (doc_id : Nat) (source : String) (total : Nat) :
    List Chunk → Nat → Nat → List ContentChunk × Nat
  | [], _, st => ([], st)
  | c :: rest, i, st =>
    let out := assembleContentChunks doc_id source total rest (i + 1) (st + 1)
    ({ id := st, doc_id := doc_id, content := c.text,
       metadata := { source := source, chunk_index := i,
                     total_chunks := total } } :: out.1,
     out.2)

/-- The outer loop of document assembly (source lines 117-140): per source
group, a fresh document uuid, `url = ""`, `title` = source, and the
rebuilt content chunks. -/
def assembleDocs : List (String × List Chunk) → Nat → List Document × Nat
  | [], st => ([], st)
  | (source, doc_chunks) :: rest, st =>
    let ccs := assembleContentChunks st source doc_chunks.length doc_chunks
      0 (st + 1)
    let out := assembleDocs rest ccs.2
    ({ id := st, url := "", title := source,
       content_chunks := ccs.1 } :: out.1, out.2)

/-- The collection-building part of `prepare_openwebui_collection`
(source lines 102-140), on the flattened list of all loaded chunks. -/
def assemble (all_chunks : List Chunk) (collection_name : String) :
    Collection :=
  { name := collection_name,
    documents := (assembleDocs (docs_by_source all_chunks) 0).1 }

/-- `prepare_openwebui_collection` after chunk loading (source lines
96-140): on an empty chunk list it prints a notice and returns early
(lines 96-98) producing no collection; otherwise it builds the
collection. -/
def prepare_openwebui_collection (all_chunks : List Chunk)
    (collection_name : String) : Option Collection :=
  if all_chunks = [] then none
  else some (assemble all_chunks collection_name)

/-- Source names in order of first appearance — the key order of
`docs_by_source` (Python dict insertion order). -/
def firstSeenSources (all_chunks : List Chunk) : List String :=
  all_chunks.foldl
    (fun acc c =>
      if c.metadata.source ∈ acc then acc else acc ++ [c.metadata.source])
    []

/-- A concrete chunk used by witness instantiations. -/
def sampleChunk : Chunk :=
  { text := ['h', 'i'],
    metadata := { source := "a.pdf", chunk_index := 0, total_chunks := 1 } }

/-- The content chunk `assemble [sampleChunk] "kb"` produces. -/
def sampleContentChunk : ContentChunk :=
  { id := 1, doc_id := 0, content := ['h', 'i'],
    metadata := { source := "a.pdf", chunk_index := 0, total_chunks := 1 } }

/-- The document `assemble [sampleChunk] "kb"` produces. -/
def sampleDocument : Document :=
  { id := 0, url := "", title := "a.pdf",
    content_chunks := [sampleContentChunk] }

/-- Python `str.strip()` on ASCII whitespace: drop whitespace from both
ends. -/
def pstrip (l : List Char) : List Char :=
  ((l.dropWhile Char.isWhitespace).reverse.dropWhile Char.isWhitespace).reverse

/-- Python `text.split('\n\n')`: split on leftmost non-overlapping
occurrences of two consecutive newlines (source line 185). -/
def splitOnNN : List Char → List (List Char)
  | [] => [[]]
  | [c] => [[c]]
  | c :: d :: rest =>
    if c = '\n' ∧ d = '\n' then [] :: splitOnNN rest
    else
      match splitOnNN (d :: rest) with
      | [] => [[c]]
      | p :: ps => (c :: p) :: ps

/-- Python `paragraph.split('\n')` (source line 190). -/
def splitNL : List Char → List (List Char)
  | [] => [[]]
  | c :: rest =>
    if c = '\n' then [] :: splitNL rest
    else
      match splitNL rest with
      | [] => [[c]]
      | p :: ps => (c :: p) :: ps

/-- Whether the text contains two consecutive newlines. -/
def containsNN : List Char → Bool
  | c :: d :: rest =>
    if c = '\n' ∧ d = '\n' then true else containsNN (d :: rest)
  | _ => false

/-- A cased character in the ASCII model (Python `isupper` counts only
cased characters). -/
def isCased (c : Char) : Bool := c.isUpper || c.isLower

/-- Python `str.isupper()` (ASCII model): at least one cased character and
no lowercase character. -/
def pisupper (l : List Char) : Bool :=
  l.any isCased && !(l.any Char.isLower)

/-- Python `str.endswith(c)` for a single character. -/
def endsWithChar (c : Char) (l : List Char) : Bool :=
  match l.getLast? with
  | some d => d = c
  | none => false

/-- Python `line.strip().startswith(('•', '-', '*', '1.', '2.'))`
(source line 203): literal marker detection only. -/
def isListLine (l : List Char) : Bool :=
  match pstrip l with
  | '•' :: _ => true
  | '-' :: _ => true
  | '*' :: _ => true
  | '1' :: '.' :: _ => true
  | '2' :: '.' :: _ => true
  | _ => false

/-- The fixed metadata header block of `generate_markdown`
(source lines 173-181). -/
def mdHeader (title : List Char) (page_count : Nat)
    (pdf_filename processed_date : List Char) : List Char :=
  ("# ").toList ++ title ++ ("\n\n**Source**: ").toList ++ pdf_filename ++
    ("\n**Pages**: ").toList ++ (Nat.repr page_count).toList ++
    ("\n**Processed**: ").toList ++ processed_date ++ ("\n\n---\n\n").toList

/-- Paragraph splitting of `generate_markdown` (source line 185):
split on blank lines, strip, drop empties. -/
def paragraphs (text : List Char) : List (List Char) :=
  ((splitOnNN text).map pstrip).filter (fun p => p ≠ [])

/-- The per-paragraph body of the heading/list/paragraph heuristic
(source lines 188-210): what one loop iteration appends to `markdown`. -/
def renderParagraph (p : List Char) : List Char :=
  if (splitNL p).length = 1 ∧ p.length < 100 then
    if pisupper p = true ∨ endsWithChar ':' p = true ∨
        endsWithChar '.' p = true then
      if p.length < 50 then ("## ").toList ++ p ++ ("\n\n").toList
      else ("### ").toList ++ p ++ ("\n\n").toList
    else p ++ ("\n\n").toList
  else
    if (splitNL p).any isListLine = true then
      ((splitNL p).foldl (fun acc ln => acc ++ ln ++ ['\n']) []) ++ ['\n']
    else List.intercalate [' '] (splitNL p) ++ ("\n\n").toList

/-- `generate_markdown` (source lines 170-212): the header followed by the
rendering of each paragraph, accumulated in order. -/
def generate_markdown (text title : List Char) (page_count : Nat)
    (pdf_filename processed_date : List Char) : List Char :=
  (paragraphs text).foldl (fun md p => md ++ renderParagraph p)
    (mdHeader title page_count pdf_filename processed_date)

theorem numChunks_stop {n stride i : Nat} (h : ¬ i < n) :
    numChunks n stride i = 0 := by
  simp [numChunks, h]

theorem numChunks_step {n stride i : Nat} (hs : 0 < stride) (h : i < n) :
    numChunks n stride i = numChunks n stride (i + stride) + 1 := by
  unfold numChunks
  by_cases h2 : i + stride < n
  · have heq : n - i - 1 = (n - (i + stride) - 1) + stride := by omega
    rw [if_pos h, if_pos h2, heq, Nat.add_div_right _ hs]
  · have hlt : n - i - 1 < stride := by omega
    rw [if_pos h, if_neg h2, Nat.div_eq_of_lt hlt]

theorem take_drop_ne_nil {T : List Char} {i cs : Nat}
    (hi : i < T.length) (hcs : 0 < cs) : (T.drop i).take cs ≠ [] := by
  have hlen : ((T.drop i).take cs).length = min cs (T.length - i) := by
    simp [List.length_take, List.length_drop]
  intro hnil
  rw [hnil] at hlen
  simp at hlen
  omega

/-- Closed form of the chunk loop: starting at offset `i` with accumulator
`acc`, the result appends one chunk per remaining iteration, at offsets
`i, i + stride, i + 2·stride, …` with consecutive indices continuing from
`acc.length`. -/
theorem chunksAux_eq (T : List Char) (s : String) (cs stride : Nat)
    (hs : 0 < stride) (hcs : 0 < cs) :
    ∀ i acc, chunksAux T s cs stride i acc =
      acc ++ (List.range (numChunks T.length stride i)).map
        (fun j => mkChunk T s cs stride (i + j * stride) (acc.length + j)) := by
  have key : ∀ k i acc, T.length - i ≤ k →
      chunksAux T s cs stride i acc =
        acc ++ (List.range (numChunks T.length stride i)).map
          (fun j => mkChunk T s cs stride (i + j * stride) (acc.length + j)) := by
    intro k
    induction k with
    | zero =>
      intro i acc hk
      have hi : ¬ i < T.length := by omega
      rw [chunksAux, dif_neg (by omega), numChunks_stop hi]
      simp
    | succ k ih =>
      intro i acc hk
      by_cases hi : i < T.length
      · rw [chunksAux, dif_pos ⟨hs, hi⟩]
        have hne : (T.drop i).take cs ≠ [] := take_drop_ne_nil hi hcs
        rw [if_neg hne, ih (i + stride) _ (by omega)]
        rw [numChunks_step hs hi, List.range_succ_eq_map]
        rw [List.map_cons, List.map_map, List.append_assoc,
          List.singleton_append]
        congr 1
        congr 1
        · simp [mkChunk]
        · refine List.map_congr_left ?_
          intro j _
          have hoff : i + stride + j * stride = i + Nat.succ j * stride := by
            simp [Nat.succ_mul]; omega
          simp [mkChunk, hoff, List.length_append]
          omega
      · rw [chunksAux, dif_neg (by omega), numChunks_stop hi]
        simp
  intro i acc
  exact key (T.length - i) i acc le_rfl

/-- Closed form of the chunker: one chunk per stride step, chunk `j`
holding the `chunk_size`-character substring starting at offset
`j * (chunk_size - overlap)`, with `chunk_index = j`. -/
theorem chunkList_eq (T : List Char) (s : String) (cs ov : Nat)
    (h : ov < cs) :
    chunkList T s cs ov =
      (List.range (numChunks T.length (cs - ov) 0)).map
        (fun j => mkChunk T s cs (cs - ov) (j * (cs - ov)) j) := by
  have hs : 0 < cs - ov := by omega
  have hcs : 0 < cs := by omega
  rw [chunkList, chunksAux_eq T s cs (cs - ov) hs hcs 0 []]
  simp

theorem chunkList_length (T : List Char) (s : String) (cs ov : Nat)
    (h : ov < cs) :
    (chunkList T s cs ov).length = numChunks T.length (cs - ov) 0 := by
  rw [chunkList_eq T s cs ov h]
  simp

theorem chunkList_getElem (T : List Char) (s : String) (cs ov : Nat)
    (h : ov < cs) (j : Nat) (hj : j < (chunkList T s cs ov).length) :
    (chunkList T s cs ov)[j] = mkChunk T s cs (cs - ov) (j * (cs - ov)) j := by
  have he := chunkList_eq T s cs ov h
  simp [he]

/-- C1: the chunker walks the text at stride `chunk_size - overlap` starting
at offset 0, so chunk `j` is exactly the substring of `T` of length at most
`chunk_size` starting at offset `j * (chunk_size - overlap)` (offsets begin
at 0 and increase by exactly the stride), `chunk_index` equals the number of
chunks already produced, and every character of `T` lands in at least one
chunk. -/
theorem chunker_offsets_cover (T : List Char) (s : String) (cs ov : Nat)
    (h : ov < cs) :
    (∀ j (hj : j < (chunkList T s cs ov).length),
      ((chunkList T s cs ov)[j]).text = (T.drop (j * (cs - ov))).take cs ∧
      ((chunkList T s cs ov)[j]).text.length ≤ cs ∧
      ((chunkList T s cs ov)[j]).metadata.chunk_index = j) ∧
    (∀ p (hp : p < T.length), ∃ j, ∃ hj : j < (chunkList T s cs ov).length,
      ∃ k, ∃ hk : k < ((chunkList T s cs ov)[j]).text.length,
        ((chunkList T s cs ov)[j]).text[k] = T[p]) := by
  have hs : 0 < cs - ov := by omega
  constructor
  · intro j hj
    rw [chunkList_getElem T s cs ov h j hj]
    refine ⟨rfl, ?_, rfl⟩
    simp [mkChunk]
  · intro p hp
    have hn : 0 < T.length := by omega
    have hjlt : p / (cs - ov) < numChunks T.length (cs - ov) 0 := by
      have h1 : p / (cs - ov) ≤ (T.length - 1) / (cs - ov) :=
        Nat.div_le_div_right (by omega)
      unfold numChunks
      rw [if_pos hn]
      simp only [Nat.sub_zero]
      omega
    have hj : p / (cs - ov) < (chunkList T s cs ov).length := by
      rw [chunkList_length T s cs ov h]
      exact hjlt
    refine ⟨p / (cs - ov), hj, p % (cs - ov), ?_⟩
    rw [chunkList_getElem T s cs ov h _ hj]
    have hdm : (cs - ov) * (p / (cs - ov)) + p % (cs - ov) = p :=
      Nat.div_add_mod p (cs - ov)
    have hcomm : (p / (cs - ov)) * (cs - ov) = (cs - ov) * (p / (cs - ov)) :=
      Nat.mul_comm _ _
    have hmod : p % (cs - ov) < cs - ov := Nat.mod_lt _ hs
    have hk : p % (cs - ov) <
        ((T.drop (p / (cs - ov) * (cs - ov))).take cs).length := by
      simp only [List.length_take, List.length_drop]
      omega
    refine ⟨by simpa [mkChunk] using hk, ?_⟩
    simp only [mkChunk, List.getElem_take, List.getElem_drop]
    have hidx : p / (cs - ov) * (cs - ov) + p % (cs - ov) = p := by omega
    simp [hidx]

/-- C1 witness at `T = "ab"`, `chunk_size = 2`, `overlap = 1`. -/
theorem chunker_offsets_cover_witness :
    (∀ j (hj : j < (chunkList ['a', 'b'] "x" 2 1).length),
      ((chunkList ['a', 'b'] "x" 2 1)[j]).text =
        ((['a', 'b'] : List Char).drop (j * (2 - 1))).take 2 ∧
      ((chunkList ['a', 'b'] "x" 2 1)[j]).text.length ≤ 2 ∧
      ((chunkList ['a', 'b'] "x" 2 1)[j]).metadata.chunk_index = j) ∧
    (∀ p (hp : p < (['a', 'b'] : List Char).length),
      ∃ j, ∃ hj : j < (chunkList ['a', 'b'] "x" 2 1).length,
      ∃ k, ∃ hk : k < ((chunkList ['a', 'b'] "x" 2 1)[j]).text.length,
        ((chunkList ['a', 'b'] "x" 2 1)[j]).text[k] =
          (['a', 'b'] : List Char)[p]) :=
  chunker_offsets_cover ['a', 'b'] "x" 2 1 (by norm_num)

/-- C2: every chunk carries the same `total_chunks` value, the closed-form
stride estimate `len(text) // (chunk_size - overlap) + 1`; and this estimate
is not the emitted count: at `T = "a"`, `chunk_size = 2`, `overlap = 1`
(length an exact multiple of the stride) one chunk is emitted but the
estimate is 2. -/
theorem chunker_total_chunks_estimate (T : List Char) (s : String)
    (cs ov : Nat) (h : ov < cs) :
    (∀ c ∈ chunkList T s cs ov,
      c.metadata.total_chunks = T.length / (cs - ov) + 1) ∧
    (chunkList ['a'] "s" 2 1).length ≠
      (['a'] : List Char).length / (2 - 1) + 1 := by
  constructor
  · intro c hc
    rw [chunkList_eq T s cs ov h] at hc
    simp only [List.mem_map, List.mem_range] at hc
    obtain ⟨j, _, rfl⟩ := hc
    rfl
  · rw [chunkList_length ['a'] "s" 2 1 (by norm_num)]
    decide

/-- C2 witness at `T = "abc"`, `chunk_size = 3`, `overlap = 1`. -/
theorem chunker_total_chunks_estimate_witness :
    (∀ c ∈ chunkList ['a', 'b', 'c'] "x" 3 1,
      c.metadata.total_chunks =
        (['a', 'b', 'c'] : List Char).length / (3 - 1) + 1) ∧
    (chunkList ['a'] "s" 2 1).length ≠
      (['a'] : List Char).length / (2 - 1) + 1 :=
  chunker_total_chunks_estimate ['a', 'b', 'c'] "x" 3 1 (by norm_num)

/-- C3: the chunker fails with `InvalidConfig` exactly when
`chunk_size ≤ overlap`, and never otherwise; empty text gives the empty
chunk sequence, and `"ab"` with `chunk_size = 1000`, `overlap = 100` gives
exactly one chunk holding `"ab"` with `chunk_index = 0`. -/
theorem chunker_invalid_config_and_edge_cases (T : List Char) (s : String)
    (cs ov : Nat) :
    (chunk T s cs ov = Except.error "InvalidConfig" ↔ cs ≤ ov) ∧
    (ov < cs → chunk T s cs ov = Except.ok (chunkList T s cs ov)) ∧
    chunk [] s 1000 100 = Except.ok [] ∧
    chunk ['a', 'b'] "s" 1000 100 = Except.ok
      [{ text := ['a', 'b'],
         metadata := { source := "s", chunk_index := 0,
                       total_chunks := 1 } }] := by
  refine ⟨⟨?_, ?_⟩, ?_, ?_, ?_⟩
  · intro he
    by_contra hlt
    unfold chunk at he
    rw [if_neg hlt] at he
    simp at he
  · intro hle
    unfold chunk
    rw [if_pos hle]
  · intro hlt
    unfold chunk
    rw [if_neg (by omega)]
  · show (if (1000 : Nat) ≤ 100 then _ else _) = _
    rw [if_neg (by norm_num), chunkList_eq _ _ _ _ (by norm_num)]
    rfl
  · show (if (1000 : Nat) ≤ 100 then _ else _) = _
    rw [if_neg (by norm_num), chunkList_eq _ _ _ _ (by norm_num)]
    rfl

/-- C3 witness: concrete instantiation showing the no-failure branch. -/
theorem chunker_invalid_config_witness :
    chunk ['a'] "x" 5 2 = Except.ok (chunkList ['a'] "x" 5 2) :=
  (chunker_invalid_config_and_edge_cases ['a'] "x" 5 2).2.1 (by norm_num)

/-- C9: the chunker is deterministic — its output is a pure function of
`(text, source, chunk_size, overlap)`: two invocations with equal arguments
yield identical results. -/
theorem chunker_deterministic (T T' : List Char) (s s' : String)
    (cs cs' ov ov' : Nat) (h1 : T = T') (h2 : s = s') (h3 : cs = cs')
    (h4 : ov = ov') : chunk T s cs ov = chunk T' s' cs' ov' := by
  rw [h1, h2, h3, h4]

/-- C9 witness at concrete equal arguments. -/
theorem chunker_deterministic_witness :
    chunk ['a'] "s" 3 1 = chunk ['a'] "s" 3 1 :=
  chunker_deterministic ['a'] ['a'] "s" "s" 3 3 1 1 rfl rfl rfl rfl

theorem firstSeenSources_concat (l : List Chunk) (c : Chunk) :
    firstSeenSources (l ++ [c]) =
      (if c.metadata.source ∈ firstSeenSources l then firstSeenSources l
       else firstSeenSources l ++ [c.metadata.source]) := by
  simp [firstSeenSources, List.foldl_append]

theorem docs_by_source_concat (l : List Chunk) (c : Chunk) :
    docs_by_source (l ++ [c]) = insertBySource (docs_by_source l) c := by
  simp [docs_by_source, List.foldl_append]

theorem mem_firstSeenSources (l : List Chunk) :
    ∀ c ∈ l, c.metadata.source ∈ firstSeenSources l := by
  induction l using List.reverseRecOn with
  | nil => simp
  | append_singleton l c ih =>
    intro d hd
    rw [firstSeenSources_concat]
    rcases List.mem_append.1 hd with hd | hd
    · have hmem := ih d hd
      split
      · exact hmem
      · exact List.mem_append_left _ hmem
    · simp only [List.mem_singleton] at hd
      subst hd
      split
      next hmem => exact hmem
      next => exact List.mem_append_right _ (by simp)

theorem firstSeenSources_nodup (l : List Chunk) :
    (firstSeenSources l).Nodup := by
  induction l using List.reverseRecOn with
  | nil => simp [firstSeenSources]
  | append_singleton l c ih =>
    rw [firstSeenSources_concat]
    split
    · exact ih
    next hmem => simp [List.nodup_append, ih, hmem]

theorem insertBySource_map_filter (c : Chunk) (l : List Chunk) :
    ∀ (F : List String), F.Nodup →
      (c.metadata.source ∉ F →
        l.filter (fun ch => ch.metadata.source = c.metadata.source) = []) →
      insertBySource
          (F.map (fun s => (s, l.filter (fun ch => ch.metadata.source = s))))
          c =
        (if c.metadata.source ∈ F then F else F ++ [c.metadata.source]).map
          (fun s => (s, (l ++ [c]).filter (fun ch => ch.metadata.source = s)))
  | [], _, hnew => by
    have hf : l.filter
        (fun ch => ch.metadata.source = c.metadata.source) = [] :=
      hnew (by simp)
    simp [insertBySource, List.filter_append, hf]
  | s₀ :: F, hnd, hnew => by
    simp only [List.map_cons, insertBySource]
    by_cases h0 : s₀ = c.metadata.source
    · subst h0
      rw [if_pos rfl, if_pos (List.mem_cons_self _ _), List.map_cons]
      congr 1
      · simp [List.filter_append]
      · refine List.map_congr_left ?_
        intro s hs
        have hne : ¬ c.metadata.source = s := by
          intro e
          exact (List.nodup_cons.1 hnd).1 (e ▸ hs)
        simp [List.filter_append, hne]
    · rw [if_neg h0]
      have hnd2 : F.Nodup := (List.nodup_cons.1 hnd).2
      have hnew2 : c.metadata.source ∉ F →
          l.filter (fun ch => ch.metadata.source = c.metadata.source) = [] := by
        intro hm
        refine hnew ?_
        simp only [List.mem_cons]
        rintro (he | hm2)
        · exact h0 he.symm
        · exact hm hm2
      rw [insertBySource_map_filter c l F hnd2 hnew2]
      have hhead : (s₀, l.filter (fun ch => ch.metadata.source = s₀)) =
          (s₀, (l ++ [c]).filter (fun ch => ch.metadata.source = s₀)) := by
        have hne : ¬ c.metadata.source = s₀ := fun e => h0 e.symm
        simp [List.filter_append, hne]
      by_cases hmem : c.metadata.source ∈ F
      · rw [if_pos hmem, if_pos (List.mem_cons_of_mem _ hmem), List.map_cons]
        rw [hhead]
      · rw [if_neg hmem,
          if_neg (by
            simp only [List.mem_cons]
            rintro (he | hm2)
            · exact h0 he.symm
            · exact hmem hm2)]
        rw [List.cons_append, List.map_cons, hhead]

theorem docs_by_source_eq (l : List Chunk) :
    docs_by_source l = (firstSeenSources l).map
      (fun s => (s, l.filter (fun ch => ch.metadata.source = s))) := by
  induction l using List.reverseRecOn with
  | nil => rfl
  | append_singleton l c ih =>
    rw [docs_by_source_concat, ih, firstSeenSources_concat]
    rw [insertBySource_map_filter c l (firstSeenSources l)
      (firstSeenSources_nodup l) ?hnew]
    case hnew =>
      intro hm
      rw [List.filter_eq_nil_iff]
      intro ch hch he
      simp only [decide_eq_true_eq] at he
      exact hm (he ▸ mem_firstSeenSources l ch hch)

theorem assembleContentChunks_length (did : Nat) (src : String)
    (total : Nat) :
    ∀ (cs : List Chunk) (i st : Nat),
      (assembleContentChunks did src total cs i st).1.length = cs.length
  | [], _, _ => rfl
  | c :: rest, i, st => by
    simp only [assembleContentChunks, List.length_cons]
    rw [assembleContentChunks_length did src total rest (i + 1) (st + 1)]

theorem assembleContentChunks_content (did : Nat) (src : String)
    (total : Nat) :
    ∀ (cs : List Chunk) (i st : Nat),
      (assembleContentChunks did src total cs i st).1.map
        ContentChunk.content = cs.map Chunk.text
  | [], _, _ => rfl
  | c :: rest, i, st => by
    simp only [assembleContentChunks, List.map_cons]
    rw [assembleContentChunks_content did src total rest (i + 1) (st + 1)]

theorem assembleContentChunks_getElem (did : Nat) (src : String)
    (total : Nat) :
    ∀ (cs : List Chunk) (i st : Nat) (j : Nat)
      (hj : j < (assembleContentChunks did src total cs i st).1.length),
      ((assembleContentChunks did src total cs i st).1[j]).metadata.chunk_index
          = i + j ∧
      ((assembleContentChunks did src total cs i st).1[j]).metadata.total_chunks
          = total ∧
      ((assembleContentChunks did src total cs i st).1[j]).metadata.source
          = src ∧
      ((assembleContentChunks did src total cs i st).1[j]).doc_id = did
  | [], _, _, j, hj => by simp [assembleContentChunks] at hj
  | c :: rest, i, st, 0, hj => by
    simp [assembleContentChunks]
  | c :: rest, i, st, j + 1, hj => by
    have hj2 : j <
        (assembleContentChunks did src total rest (i + 1) (st + 1)).1.length := by
      simp only [assembleContentChunks, List.length_cons] at hj
      omega
    obtain ⟨h1, h2, h3, h4⟩ :=
      assembleContentChunks_getElem did src total rest (i + 1) (st + 1) j hj2
    simp only [assembleContentChunks, List.getElem_cons_succ]
    exact ⟨by rw [h1]; omega, h2, h3, h4⟩

theorem assembleDocs_titles :
    ∀ (groups : List (String × List Chunk)) (st : Nat),
      ((assembleDocs groups st).1).map Document.title = groups.map Prod.fst
  | [], _ => rfl
  | (src, dcs) :: rest, st => by
    simp only [assembleDocs, List.map_cons]
    rw [assembleDocs_titles rest _]

theorem assembleDocs_mem :
    ∀ (groups : List (String × List Chunk)) (st : Nat),
      ∀ d ∈ (assembleDocs groups st).1,
        ∃ g ∈ groups, d.title = g.1 ∧
          d.content_chunks =
            (assembleContentChunks d.id g.1 g.2.length g.2 0 (d.id + 1)).1
  | [], st, d, hd => by simp [assembleDocs] at hd
  | (src, dcs) :: rest, st, d, hd => by
    simp only [assembleDocs, List.mem_cons] at hd
    rcases hd with hd | hd
    · subst hd
      exact ⟨(src, dcs), List.mem_cons_self _ _, rfl, rfl⟩
    · obtain ⟨g, hg, h1, h2⟩ := assembleDocs_mem rest _ d hd
      exact ⟨g, List.mem_cons_of_mem _ hg, h1, h2⟩

/-- C4: the assembler groups chunks solely by each chunk's own
`metadata.source`, producing one document per distinct source in first-seen
order, with one content chunk per input chunk of that source in preserved
order; each output chunk's `content` is the input chunk's text, and the
output metadata is normalized at assembly time: `chunk_index` is the
position within the assembly-time group and `total_chunks` is the group
size, regardless of the metadata stored on the input chunks. -/
theorem assembler_grouping_normalizes (l : List Chunk) (name : String) :
    (assemble l name).name = name ∧
    ((assemble l name).documents).map Document.title = firstSeenSources l ∧
    (((assemble l name).documents).map Document.title).Nodup ∧
    ∀ d ∈ (assemble l name).documents,
      d.content_chunks.map ContentChunk.content =
        (l.filter (fun c => c.metadata.source = d.title)).map Chunk.text ∧
      ∀ j (hj : j < d.content_chunks.length),
        (d.content_chunks[j]).metadata.chunk_index = j ∧
        (d.content_chunks[j]).metadata.total_chunks =
          d.content_chunks.length ∧
        (d.content_chunks[j]).metadata.source = d.title := by
  have htitles : ((assemble l name).documents).map Document.title =
      firstSeenSources l := by
    show ((assembleDocs (docs_by_source l) 0).1).map Document.title = _
    rw [assembleDocs_titles, docs_by_source_eq, List.map_map]
    have hcomp : (Prod.fst ∘ fun s : String =>
        (s, l.filter (fun ch => ch.metadata.source = s))) = fun s => s := rfl
    rw [hcomp, List.map_id']
  refine ⟨rfl, htitles, by rw [htitles]; exact firstSeenSources_nodup l, ?_⟩
  intro d hd
  obtain ⟨g, hg, htitle, hcc⟩ := assembleDocs_mem (docs_by_source l) 0 d hd
  rw [docs_by_source_eq] at hg
  simp only [List.mem_map] at hg
  obtain ⟨s, hs, rfl⟩ := hg
  simp only at htitle
  constructor
  · rw [hcc, assembleContentChunks_content, htitle]
  · intro j hj
    have hj2 : j < (assembleContentChunks d.id s
        (l.filter (fun ch => ch.metadata.source = s)).length
        (l.filter (fun ch => ch.metadata.source = s)) 0 (d.id + 1)).1.length := by
      rw [← hcc]
      exact hj
    have hfacts := assembleContentChunks_getElem d.id s
      (l.filter (fun ch => ch.metadata.source = s)).length
      (l.filter (fun ch => ch.metadata.source = s)) 0 (d.id + 1) j hj2
    have hlen : d.content_chunks.length =
        (l.filter (fun ch => ch.metadata.source = s)).length := by
      rw [hcc, assembleContentChunks_length]
    have hel : d.content_chunks[j] = (assembleContentChunks d.id s
        (l.filter (fun ch => ch.metadata.source = s)).length
        (l.filter (fun ch => ch.metadata.source = s)) 0 (d.id + 1)).1[j] := by
      congr 1
    rw [hel, hlen, htitle]
    obtain ⟨h1, h2, h3, _⟩ := hfacts
    exact ⟨by rw [h1]; omega, h2, h3⟩

/-- C10: in every assembled collection, each content chunk's `doc_id`
equals the `id` of the document that contains it. -/
theorem assembler_doc_id_links (l : List Chunk) (name : String) :
    ∀ d ∈ (assemble l name).documents, ∀ cc ∈ d.content_chunks,
      cc.doc_id = d.id := by
  intro d hd cc hcc
  obtain ⟨g, hg, htitle, hccs⟩ := assembleDocs_mem (docs_by_source l) 0 d hd
  rw [hccs] at hcc
  obtain ⟨j, hj, rfl⟩ := List.mem_iff_getElem.1 hcc
  exact (assembleContentChunks_getElem d.id g.1 g.2.length g.2 0
    (d.id + 1) j hj).2.2.2

/-- C10 witness: the single document assembled from `sampleChunk` links its
content chunk to the enclosing document id. -/
theorem assembler_doc_id_links_witness :
    sampleContentChunk.doc_id = sampleDocument.id :=
  assembler_doc_id_links [sampleChunk] "kb" sampleDocument (by decide)
    sampleContentChunk (by decide)

/-- C5 counterexample: on empty input the source returns early (lines
96-98), producing no collection value at all — there is no `Collection`
with an empty `documents` list returned. -/
theorem assembler_empty_counterexample :
    ¬ ∃ col, prepare_openwebui_collection [] "Document Knowledge Base" =
        some col ∧ col.documents = [] := by
  rintro ⟨col, hcol, -⟩
  simp [prepare_openwebui_collection] at hcol

/-- C5 amended: with no chunks the assembler does not fail — it returns
early with no collection value (`none`, nothing written), rather than
returning a `Collection` with `documents = []`; the collection-building
code itself, applied to no chunks, would yield zero documents. -/
theorem assembler_empty_early_return (name : String) :
    prepare_openwebui_collection [] name = none ∧
    (assemble [] name).documents = [] :=
  ⟨rfl, rfl⟩

theorem splitNL_ne_nil (p : List Char) : splitNL p ≠ [] := by
  match p with
  | [] => simp [splitNL]
  | c :: rest =>
    simp only [splitNL]
    by_cases hc : c = '\n'
    · simp [hc]
    · rw [if_neg hc]
      cases hq : splitNL rest with
      | nil => simp
      | cons q qs => simp

theorem splitNL_no_nl : ∀ (p : List Char), '\n' ∉ p → splitNL p = [p]
  | [], _ => rfl
  | c :: rest, h => by
    have hc : ¬ c = '\n' := fun e => h (by simp [e])
    have hrest : '\n' ∉ rest := fun hm => h (List.mem_cons_of_mem _ hm)
    simp only [splitNL]
    rw [if_neg hc, splitNL_no_nl rest hrest]

theorem splitNL_length_ge_two : ∀ (p : List Char), '\n' ∈ p →
    2 ≤ (splitNL p).length
  | [], h => absurd h (by simp)
  | c :: rest, h => by
    simp only [splitNL]
    by_cases hc : c = '\n'
    · rw [if_pos hc, List.length_cons]
      have h1 : 0 < (splitNL rest).length :=
        List.length_pos.2 (splitNL_ne_nil rest)
      omega
    · have hrest : '\n' ∈ rest := by
        rcases List.mem_cons.1 h with e | hm
        · exact absurd e.symm hc
        · exact hm
      have ih := splitNL_length_ge_two rest hrest
      rw [if_neg hc]
      cases hq : splitNL rest with
      | nil => exact absurd hq (splitNL_ne_nil rest)
      | cons q qs =>
        rw [hq] at ih
        simp only [List.length_cons] at ih ⊢
        omega

theorem splitOnNN_no_nn : ∀ (p : List Char), containsNN p = false →
    splitOnNN p = [p]
  | [], _ => rfl
  | [c], _ => rfl
  | c :: d :: rest, h => by
    by_cases hp : c = '\n' ∧ d = '\n'
    · rw [containsNN, if_pos hp] at h
      exact absurd h (by simp)
    · have h2 : containsNN (d :: rest) = false := by
        rw [containsNN, if_neg hp] at h
        exact h
      simp only [splitOnNN]
      rw [if_neg hp, splitOnNN_no_nn (d :: rest) h2]

theorem containsNN_eq_false_of_no_nl : ∀ (p : List Char), '\n' ∉ p →
    containsNN p = false
  | [], _ => rfl
  | [_], _ => rfl
  | c :: d :: rest, h => by
    have hp : ¬(c = '\n' ∧ d = '\n') := by
      rintro ⟨e, -⟩
      exact h (by simp [e])
    rw [containsNN, if_neg hp]
    exact containsNN_eq_false_of_no_nl (d :: rest)
      (fun hm => h (List.mem_cons_of_mem _ hm))

theorem paragraphs_single (p : List Char) (hnn : containsNN p = false)
    (hstrip : pstrip p = p) (hne : p ≠ []) : paragraphs p = [p] := by
  unfold paragraphs
  rw [splitOnNN_no_nn p hnn]
  simp [hstrip, hne]

theorem generate_markdown_single (text title fn dt : List Char) (pc : Nat)
    (hpar : paragraphs text = [text]) :
    generate_markdown text title pc fn dt =
      mdHeader title pc fn dt ++ renderParagraph text := by
  unfold generate_markdown
  rw [hpar]
  simp

theorem foldl_append_lines : ∀ (lines : List (List Char)) (acc : List Char),
    lines.foldl (fun a l => a ++ l ++ ['\n']) acc =
      acc ++ (lines.map (fun l => l ++ ['\n'])).flatten
  | [], acc => by simp
  | l :: rest, acc => by
    simp only [List.foldl_cons, List.map_cons, List.flatten_cons]
    rw [foldl_append_lines rest (acc ++ l ++ ['\n'])]
    simp [List.append_assoc]

theorem foldl_append_extends (f : List Char → List Char) :
    ∀ (ps : List (List Char)) (init : List Char),
      ∃ rest, ps.foldl (fun md p => md ++ f p) init = init ++ rest
  | [], init => ⟨[], by simp⟩
  | p :: ps, init => by
    obtain ⟨r, hr⟩ := foldl_append_extends f ps (init ++ f p)
    refine ⟨f p ++ r, ?_⟩
    simp only [List.foldl_cons]
    rw [hr, List.append_assoc]

/-- C6: a single-line paragraph shorter than 100 characters that is
entirely upper-case, or ends with a colon, or ends with a period, is
rendered as a level-2 heading when shorter than 50 characters and as a
level-3 heading otherwise; a single-line paragraph not matching the
condition is rendered as a plain paragraph followed by a blank line. -/
theorem markdown_single_line_headings (title fn dt p : List Char) (pc : Nat)
    (hnl : '\n' ∉ p) (hstrip : pstrip p = p) (hne : p ≠ [])
    (hlen : p.length < 100) :
    generate_markdown p title pc fn dt =
      mdHeader title pc fn dt ++
        (if pisupper p = true ∨ endsWithChar ':' p = true ∨
            endsWithChar '.' p = true then
          (if p.length < 50 then ("## ").toList ++ p ++ ("\n\n").toList
           else ("### ").toList ++ p ++ ("\n\n").toList)
         else p ++ ("\n\n").toList) := by
  rw [generate_markdown_single p title fn dt pc
    (paragraphs_single p (containsNN_eq_false_of_no_nl p hnl) hstrip hne)]
  congr 1
  unfold renderParagraph
  rw [if_pos ⟨by rw [splitNL_no_nl p hnl]; rfl, hlen⟩]

/-- C6 witness: the paragraph `"INTRODUCTION"` (single-line, upper-case,
shorter than 50 characters) is rendered as a level-2 heading. -/
theorem markdown_single_line_headings_witness :
    generate_markdown ("INTRODUCTION").toList ("T").toList 1
        ("f.pdf").toList ("d").toList =
      mdHeader ("T").toList 1 ("f.pdf").toList ("d").toList ++
        (if pisupper ("INTRODUCTION").toList = true ∨
            endsWithChar ':' ("INTRODUCTION").toList = true ∨
            endsWithChar '.' ("INTRODUCTION").toList = true then
          (if ("INTRODUCTION").toList.length < 50 then
            ("## ").toList ++ ("INTRODUCTION").toList ++ ("\n\n").toList
           else ("### ").toList ++ ("INTRODUCTION").toList ++
             ("\n\n").toList)
         else ("INTRODUCTION").toList ++ ("\n\n").toList) :=
  markdown_single_line_headings ("T").toList ("f.pdf").toList ("d").toList
    ("INTRODUCTION").toList 1 (by decide) (by decide) (by decide) (by decide)

/-- C7: a multi-line paragraph with at least one line whose trimmed form
starts with a bullet or the literal numbered markers is emitted as its
lines verbatim each on its own line followed by one blank line; otherwise
its lines are joined with single spaces into one flowing paragraph followed
by a blank line.  Only the literal markers `1.` and `2.` are recognized,
not arbitrary numbers. -/
theorem markdown_multiline_lists (title fn dt p : List Char) (pc : Nat)
    (hstrip : pstrip p = p) (hnn : containsNN p = false)
    (hml : (splitNL p).length ≠ 1) :
    (generate_markdown p title pc fn dt =
      mdHeader title pc fn dt ++
        (if (splitNL p).any isListLine = true then
          ((splitNL p).map (fun ln => ln ++ ['\n'])).flatten ++ ['\n']
         else List.intercalate [' '] (splitNL p) ++ ("\n\n").toList)) ∧
    isListLine ("1. one").toList = true ∧
    isListLine ("2. two").toList = true ∧
    isListLine ("3. three").toList = false ∧
    isListLine ("10. ten").toList = false := by
  have hne : p ≠ [] := by
    intro e
    subst e
    exact hml rfl
  refine ⟨?_, by decide, by decide, by decide, by decide⟩
  rw [generate_markdown_single p title fn dt pc
    (paragraphs_single p hnn hstrip hne)]
  congr 1
  unfold renderParagraph
  rw [if_neg (fun hand => hml hand.1)]
  by_cases hl : (splitNL p).any isListLine = true
  · rw [if_pos hl, if_pos hl, foldl_append_lines]
    simp
  · rw [if_neg hl, if_neg hl]

/-- C7 witness: the two-line bullet paragraph `"- item one\n- item two"`
is emitted as a verbatim list block. -/
theorem markdown_multiline_lists_witness :
    (generate_markdown ("- item one\n- item two").toList ("T").toList 1
        ("f.pdf").toList ("d").toList =
      mdHeader ("T").toList 1 ("f.pdf").toList ("d").toList ++
        (if (splitNL ("- item one\n- item two").toList).any isListLine =
            true then
          ((splitNL ("- item one\n- item two").toList).map
            (fun ln => ln ++ ['\n'])).flatten ++ ['\n']
         else List.intercalate [' ']
            (splitNL ("- item one\n- item two").toList) ++
            ("\n\n").toList)) ∧
    isListLine ("1. one").toList = true ∧
    isListLine ("2. two").toList = true ∧
    isListLine ("3. three").toList = false ∧
    isListLine ("10. ten").toList = false :=
  markdown_multiline_lists ("T").toList ("f.pdf").toList ("d").toList
    ("- item one\n- item two").toList 1 (by decide) (by decide) (by decide)

/-- C8: the reconstructor's output always begins with the fixed header
block — level-1 title heading, source filename, page count, processed
timestamp, horizontal rule — and on the concrete input of the spec the
output starts with exactly the stated header text. -/
theorem markdown_header_block (text title fn dt : List Char) (pc : Nat) :
    (∃ rest, generate_markdown text title pc fn dt =
      mdHeader title pc fn dt ++ rest) ∧
    generate_markdown ("body").toList ("Title").toList 3 ("f.pdf").toList
        ("2024-01-01 00:00:00").toList =
      ("# Title\n\n**Source**: f.pdf\n**Pages**: 3\n" ++
        "**Processed**: 2024-01-01 00:00:00\n\n---\n\n").toList ++
        ("body\n\n").toList := by
  constructor
  · exact foldl_append_extends renderParagraph (paragraphs text)
      (mdHeader title pc fn dt)
  · decide

end DocRAG
